import Mathlib

set_option maxHeartbeats 1000000
set_option maxRecDepth 8000

/-!
Verification development for the YaoGarbledMax repository.

The circuit synthesizer (`src/garbled/src/boolean.py`) and the plaintext
harness (`src/garbled/src/format.py`) are shallowly embedded below.  Python
mutable state (`self.gates`, `self.gen`, ...) is modelled by explicit state
passing over a `BooleanCircuit` record; each emitter returns the allocated
wire id together with the updated state, exactly as the Python methods
mutate `self` and return the id.
-/

/-- Gate kinds emitted by the synthesizer (`boolean.py`: `an`, `orr`,
`nxor`, `no`). -/
inductive GateType where
  | AND
  | OR
  | NXOR
  | NOT
deriving DecidableEq, Repr

/-- One gate of the synthesized circuit: `{"id": ..., "type": ..., "in": [...]}`.
The JSON field `in` is a Lean keyword, so it is called `inputs` here. -/
structure Gate where
  id : Nat
  type : GateType
  inputs : List Nat
deriving DecidableEq, Repr

/-- The synthesizer state: the fields of the Python class `BooleanCircuit`.
`gen` holds the last id handed out by the generator `get_next_id`
(initialized to `2 * bits`, so the first allocated id is `2 * bits + 1`). -/
structure BooleanCircuit where
  bits : Nat
  set_size : Nat
  gen : Nat
  inputs_alice : List Nat
  inputs_bob : List Nat
  outputs : List Nat
  gates : List Gate
deriving DecidableEq, Repr

/-- `BooleanCircuit.__init__`. -/
def BooleanCircuit.init (bits set_size : Nat) : BooleanCircuit :=
  { bits := bits, set_size := set_size, gen := 2 * bits,
    inputs_alice := [], inputs_bob := [], outputs := [], gates := [] }

/-- One step of the generator `get_next_id`: `gate_n += 1; yield gate_n`. -/
def get_next_id (s : BooleanCircuit) : Nat × BooleanCircuit :=
  (s.gen + 1, { s with gen := s.gen + 1 })

/-- `BooleanCircuit.an`: emit an AND gate. -/
def an (s : BooleanCircuit) (a b : Nat) (output : Bool) : Nat × BooleanCircuit :=
  let (out, s) := get_next_id s
  (out, { s with
          gates := s.gates ++ [{ id := out, type := GateType.AND, inputs := [a, b] }],
          outputs := if output then s.outputs ++ [out] else s.outputs })

/-- `BooleanCircuit.nxor`: emit an NXOR gate. -/
def nxor (s : BooleanCircuit) (a b : Nat) (output : Bool) : Nat × BooleanCircuit :=
  let (out, s) := get_next_id s
  (out, { s with
          gates := s.gates ++ [{ id := out, type := GateType.NXOR, inputs := [a, b] }],
          outputs := if output then s.outputs ++ [out] else s.outputs })

/-- `BooleanCircuit.no`: emit a NOT gate. -/
def no (s : BooleanCircuit) (a : Nat) (output : Bool) : Nat × BooleanCircuit :=
  let (out, s) := get_next_id s
  (out, { s with
          gates := s.gates ++ [{ id := out, type := GateType.NOT, inputs := [a] }],
          outputs := if output then s.outputs ++ [out] else s.outputs })

/-- `BooleanCircuit.orr`: emit an OR gate. -/
def orr (s : BooleanCircuit) (a b : Nat) (output : Bool) : Nat × BooleanCircuit :=
  let (out, s) := get_next_id s
  (out, { s with
          gates := s.gates ++ [{ id := out, type := GateType.OR, inputs := [a, b] }],
          outputs := if output then s.outputs ++ [out] else s.outputs })

/-- `BooleanCircuit.circuit_block` (boolean.py lines 64-109).  The nested
Python calls are sequentialized in Python's argument-evaluation order
(inner calls first, left to right), which is the order in which the gate
ids are drawn from the generator. -/
def circuit_block (s : BooleanCircuit) (a3 a2 a1 a0 b3 b2 b1 b0 : Nat) :
    (Nat × Nat × Nat × Nat) × BooleanCircuit :=
  -- NXOR to check which bits are equal
  let (x3, s) := nxor s a3 b3 false
  let (x2, s) := nxor s a2 b2 false
  let (x1, s) := nxor s a1 b1 false
  let (x0, s) := nxor s a0 b0 false
  -- NOTs useful later
  let (nb0, s) := no s b0 false
  let (nb1, s) := no s b1 false
  let (nb2, s) := no s b2 false
  let (nb3, s) := no s b3 false
  -- Z tells us whether the two numbers are equal: an(an(x3, x2), an(x1, x0))
  let (t1, s) := an s x3 x2 false
  let (t2, s) := an s x1 x0 false
  let (z, s) := an s t1 t2 false
  -- X is true if A > B:
  -- orr(orr(orr(an(a3, nb3), an(an(x3, a2), nb2)),
  --         an(an(x3, x2), an(a1, nb1))),
  --     an(an(an(an(x3, x2), x1), a0), nb0))
  let (u1, s) := an s a3 nb3 false
  let (u2, s) := an s x3 a2 false
  let (u3, s) := an s u2 nb2 false
  let (u4, s) := orr s u1 u3 false
  let (u5, s) := an s x3 x2 false
  let (u6, s) := an s a1 nb1 false
  let (u7, s) := an s u5 u6 false
  let (u8, s) := orr s u4 u7 false
  let (u9, s) := an s x3 x2 false
  let (u10, s) := an s u9 x1 false
  let (u11, s) := an s u10 a0 false
  let (u12, s) := an s u11 nb0 false
  let (x, s) := orr s u8 u12 false
  -- If A > B or A = B we output A
  let (x, s) := orr s x z false
  let (nx, s) := no s x false
  -- Set the correct output bits
  let (z3, s) := orr s a3 b3 true
  let (v1, s) := an s x a2 false
  let (v2, s) := an s nx b2 false
  let (z2, s) := orr s v1 v2 true
  let (v3, s) := an s x a1 false
  let (v4, s) := an s nx b1 false
  let (z1, s) := orr s v3 v4 true
  let (v5, s) := an s x a0 false
  let (v6, s) := an s nx b0 false
  let (z0, s) := orr s v5 v6 true
  ((z3, z2, z1, z0), s)

/-- The loop-carried variables of `complete_circuit`'s chaining loop:
the `alice` ownership flag, the current comparator inputs
`a3..a0`/`b3..b0`, and the synthesizer state. -/
structure ChainState where
  alice : Bool
  a3 : Nat
  a2 : Nat
  a1 : Nat
  a0 : Nat
  b3 : Nat
  b2 : Nat
  b1 : Nat
  b0 : Nat
  c : BooleanCircuit
deriving Repr

/-- The switchover test `(n-2) / (i+1) == 2` of boolean.py line 135,
written with Python's true division.  For the integer ranges reachable
here the IEEE-754 quotient compares equal to `2` exactly when the exact
rational quotient equals `2` (the nearest other representable quotients
are at distance at least `1/(i+1)`, far above one ulp), and that in turn
holds exactly when `n - 2 = 2 * (i + 1)` over the integers; the test is
defined in this cross-multiplied form so that it evaluates inside the
kernel, and `divCondTrue_eq_rat` proves it equal to the rational
division reading. -/
def divCondTrue (n i : Nat) : Bool :=
  decide ((n : Int) - 2 = 2 * ((i : Int) + 1))

/-- The same switchover test written with exact rational division,
verbatim from `(n-2) / (i+1) == 2`. -/
def divCondRat (n i : Nat) : Bool :=
  decide (((n : ℚ) - 2) / ((i : ℚ) + 1) = 2)

/-- The same test read with integer (floor) division `(n-2) // (i+1) == 2`,
following the spec's words "integer division equivalence"; used only to
compare against `divCondTrue`. -/
def divCondInt (n i : Nat) : Bool :=
  decide ((n - 2) / (i + 1) = 2)

/-- The body of the loop `for i in range(n-2)` of `complete_circuit`
(boolean.py lines 123-136), parametrized by the switchover test `cond`. -/
def chainStep (cond : Nat → Nat → Bool) (n i : Nat) (st : ChainState) : ChainState :=
  let ((a3, a2, a1, a0), s) := circuit_block st.c st.a3 st.a2 st.a1 st.a0 st.b3 st.b2 st.b1 st.b0
  let (b3, s) := get_next_id s
  let (b2, s) := get_next_id s
  let (b1, s) := get_next_id s
  let (b0, s) := get_next_id s
  -- Add input gates to the respective participant
  let s := if st.alice
    then { s with inputs_alice := s.inputs_alice ++ [b3, b2, b1, b0] }
    else { s with inputs_bob := s.inputs_bob ++ [b3, b2, b1, b0] }
  -- Switch participant halfway through
  let alice := if cond n i then !st.alice else st.alice
  { alice := alice, a3 := a3, a2 := a2, a1 := a1, a0 := a0,
    b3 := b3, b2 := b2, b1 := b1, b0 := b0, c := s }

/-- The chaining loop: `r` remaining iterations starting at index `i`. -/
def chainLoop (cond : Nat → Nat → Bool) (n : Nat) : Nat → Nat → ChainState → ChainState
  | 0, _, st => st
  | r + 1, i, st => chainLoop cond n r (i + 1) (chainStep cond n i st)

/-- The JSON circuit written by `complete_circuit`: the fields
`alice`, `bob`, `out`, `gates` of the emitted `circuits[0]` object. -/
structure Circuit where
  alice : List Nat
  bob : List Nat
  out : List Nat
  gates : List Gate
deriving DecidableEq, Repr

/-- Python `l[-4:]`: the last four elements. -/
def takeLast4 (l : List Nat) : List Nat :=
  l.drop (l.length - 4)

/-- `BooleanCircuit.complete_circuit` (boolean.py lines 111-169),
parametrized by the switchover test used at line 135. -/
def complete_circuit_with (cond : Nat → Nat → Bool) (bits set_size : Nat) : Circuit :=
  let s0 := BooleanCircuit.init bits set_size
  let n := set_size * 2
  -- Starting 4 bit inputs for Alice (1..4) and Bob (5..8)
  let s0 := { s0 with inputs_alice := s0.inputs_alice ++ [1, 2, 3, 4] }
  let s0 := { s0 with inputs_bob := s0.inputs_bob ++ [5, 6, 7, 8] }
  let st0 : ChainState :=
    { alice := true, a3 := 1, a2 := 2, a1 := 3, a0 := 4,
      b3 := 5, b2 := 6, b1 := 7, b0 := 8, c := s0 }
  let st := chainLoop cond n (n - 2) 0 st0
  -- Last block computes output
  let (_, s) := circuit_block st.c st.a3 st.a2 st.a1 st.a0 st.b3 st.b2 st.b1 st.b0
  { alice := s.inputs_alice, bob := s.inputs_bob,
    out := takeLast4 s.outputs, gates := s.gates }

/-- `complete_circuit` as the source runs it: the switchover test uses
Python true division. -/
def complete_circuit (bits set_size : Nat) : Circuit :=
  complete_circuit_with divCondTrue bits set_size

/-- The variant of the synthesis in which the switchover test is read
with integer division, as the spec's parenthetical suggests; defined only
to compare with `complete_circuit`. -/
def complete_circuit_intdiv (bits set_size : Nat) : Circuit :=
  complete_circuit_with divCondInt bits set_size

/-!  Boolean semantics of a synthesized gate list: gates are evaluated in
list order, each one overwriting its output wire in the environment. -/

/-- Truth function of one gate type applied to its input values.
NXOR is logical equivalence. -/
def gateFun : GateType → List Bool → Bool
  | GateType.AND, [a, b] => a && b
  | GateType.OR, [a, b] => a || b
  | GateType.NXOR, [a, b] => a == b
  | GateType.NOT, [a] => !a
  | _, _ => false

/-- Evaluate one gate on top of an environment. -/
def updEnv (env : Nat → Bool) (g : Gate) : Nat → Bool :=
  fun w => if w = g.id then gateFun g.type (g.inputs.map env) else env w

/-- Evaluate a gate list in order under Boolean semantics. -/
def evalGates (gs : List Gate) (env : Nat → Bool) : Nat → Bool :=
  gs.foldl updEnv env

/-- The MSB-first value of a 4-bit group of Booleans. -/
def quadVal (v3 v2 v1 v0 : Bool) : Nat :=
  8 * v3.toNat + 4 * v2.toNat + 2 * v1.toNat + v0.toNat

/-- MSB-first 4-bit encoding of a natural number. -/
def bits4 (m : Nat) : List Bool :=
  [m.testBit 3, m.testBit 2, m.testBit 1, m.testBit 0]

/-- Split a wire list into consecutive groups of four (the final group is
whatever remains if the length is not a multiple of four). -/
def chunks4 : List Nat → List (List Nat)
  | a :: b :: c :: d :: rest => [a, b, c, d] :: chunks4 rest
  | [] => []
  | rest => [rest]

/-- The MSB-first value of a group of Booleans (0 for ragged groups). -/
def quadValB : List Bool → Nat
  | [v3, v2, v1, v0] => quadVal v3 v2 v1 v0
  | _ => 0

/-- The values of the 4-bit groups of a wire list under an assignment. -/
def chunkVals (env : Nat → Bool) (l : List Nat) : List Nat :=
  (chunks4 l).map fun q => quadValB (q.map env)

/-- The maximum of all input-group values of a circuit under an assignment. -/
def maxVal (env : Nat → Bool) (c : Circuit) : Nat :=
  (chunkVals env c.alice ++ chunkVals env c.bob).foldr max 0

/-!  The 36 gates emitted by one invocation of `circuit_block` when the
generator last handed out id `g`, written as an explicit list.  The ids
follow Python's argument-evaluation order (see `circuit_block`). -/

/-- The gate list of one comparator block. -/
def blockGates (g a3 a2 a1 a0 b3 b2 b1 b0 : Nat) : List Gate :=
  [⟨g + 1, GateType.NXOR, [a3, b3]⟩, ⟨g + 2, GateType.NXOR, [a2, b2]⟩,
   ⟨g + 3, GateType.NXOR, [a1, b1]⟩, ⟨g + 4, GateType.NXOR, [a0, b0]⟩,
   ⟨g + 5, GateType.NOT, [b0]⟩, ⟨g + 6, GateType.NOT, [b1]⟩,
   ⟨g + 7, GateType.NOT, [b2]⟩, ⟨g + 8, GateType.NOT, [b3]⟩,
   ⟨g + 9, GateType.AND, [g + 1, g + 2]⟩, ⟨g + 10, GateType.AND, [g + 3, g + 4]⟩,
   ⟨g + 11, GateType.AND, [g + 9, g + 10]⟩,
   ⟨g + 12, GateType.AND, [a3, g + 8]⟩, ⟨g + 13, GateType.AND, [g + 1, a2]⟩,
   ⟨g + 14, GateType.AND, [g + 13, g + 7]⟩, ⟨g + 15, GateType.OR, [g + 12, g + 14]⟩,
   ⟨g + 16, GateType.AND, [g + 1, g + 2]⟩, ⟨g + 17, GateType.AND, [a1, g + 6]⟩,
   ⟨g + 18, GateType.AND, [g + 16, g + 17]⟩, ⟨g + 19, GateType.OR, [g + 15, g + 18]⟩,
   ⟨g + 20, GateType.AND, [g + 1, g + 2]⟩, ⟨g + 21, GateType.AND, [g + 20, g + 3]⟩,
   ⟨g + 22, GateType.AND, [g + 21, a0]⟩, ⟨g + 23, GateType.AND, [g + 22, g + 5]⟩,
   ⟨g + 24, GateType.OR, [g + 19, g + 23]⟩,
   ⟨g + 25, GateType.OR, [g + 24, g + 11]⟩, ⟨g + 26, GateType.NOT, [g + 25]⟩,
   ⟨g + 27, GateType.OR, [a3, b3]⟩,
   ⟨g + 28, GateType.AND, [g + 25, a2]⟩, ⟨g + 29, GateType.AND, [g + 26, b2]⟩,
   ⟨g + 30, GateType.OR, [g + 28, g + 29]⟩,
   ⟨g + 31, GateType.AND, [g + 25, a1]⟩, ⟨g + 32, GateType.AND, [g + 26, b1]⟩,
   ⟨g + 33, GateType.OR, [g + 31, g + 32]⟩,
   ⟨g + 34, GateType.AND, [g + 25, a0]⟩, ⟨g + 35, GateType.AND, [g + 26, b0]⟩,
   ⟨g + 36, GateType.OR, [g + 34, g + 35]⟩]

/-- The Boolean function of one comparator block, written with the same
expression structure as the gates of `circuit_block`; returns
`(z3, z2, z1, z0)`. -/
def blockFun (a3 a2 a1 a0 b3 b2 b1 b0 : Bool) : Bool × Bool × Bool × Bool :=
  let x3 := a3 == b3
  let x2 := a2 == b2
  let x1 := a1 == b1
  let x0 := a0 == b0
  let nb0 := !b0
  let nb1 := !b1
  let nb2 := !b2
  let nb3 := !b3
  let z := (x3 && x2) && (x1 && x0)
  let x := (((a3 && nb3) || ((x3 && a2) && nb2)) || ((x3 && x2) && (a1 && nb1))) ||
    ((((x3 && x2) && x1) && a0) && nb0)
  let x := x || z
  let nx := !x
  (a3 || b3, (x && a2) || (nx && b2), (x && a1) || (nx && b1), (x && a0) || (nx && b0))

/-- The four components of a block result, MSB first. -/
def quadList (q : Bool × Bool × Bool × Bool) : List Bool :=
  [q.1, q.2.1, q.2.2.1, q.2.2.2]

/-- The 4-bit value of a block result, MSB first. -/
def tupleVal (q : Bool × Bool × Bool × Bool) : Nat :=
  quadVal q.1 q.2.1 q.2.2.1 q.2.2.2

/-- The maximum of a list of naturals (`max(ss)` in Python, on the
nonempty lists arising here; `0` for the empty list). -/
def listMax (l : List Nat) : Nat :=
  l.foldr max 0

/-- Well-formed gate lists: every gate reads only wires from `avail`
(the circuit input wires) or outputs of earlier gates in the list. -/
def GatesOk (avail : List Nat) : List Gate → Prop
  | [] => True
  | gt :: rest => (∀ w ∈ gt.inputs, w ∈ avail) ∧ GatesOk (avail ++ [gt.id]) rest

/-- Well-formedness of a synthesized circuit: every gate input references
an input wire or an earlier gate, gate ids strictly increase in list
order, and there are exactly four output wires. -/
def wellFormed (c : Circuit) : Prop :=
  GatesOk (c.alice ++ c.bob) c.gates ∧
    List.Pairwise (fun u v => u < v) (c.gates.map Gate.id) ∧ c.out.length = 4

/-- The invariant carried around `complete_circuit`'s chaining loop,
relative to a fixed assignment `env` of Booleans to all wires. -/
structure ChainInv (env : Nat → Bool) (st : ChainState) : Prop where
  gatesLe : ∀ gt ∈ st.c.gates, gt.id ≤ st.c.gen
  gatesSorted : List.Pairwise (fun u v => u < v) (st.c.gates.map Gate.id)
  gatesOk : GatesOk (st.c.inputs_alice ++ st.c.inputs_bob) st.c.gates
  inputsLe : ∀ w ∈ st.c.inputs_alice ++ st.c.inputs_bob, w ≤ st.c.gen
  inputsNotGates : ∀ w ∈ st.c.inputs_alice ++ st.c.inputs_bob, ∀ gt ∈ st.c.gates, w ≠ gt.id
  aLe : st.a3 ≤ st.c.gen ∧ st.a2 ≤ st.c.gen ∧ st.a1 ≤ st.c.gen ∧ st.a0 ≤ st.c.gen
  bLe : st.b3 ≤ st.c.gen ∧ st.b2 ≤ st.c.gen ∧ st.b1 ≤ st.c.gen ∧ st.b0 ≤ st.c.gen
  aAvail : st.a3 ∈ st.c.inputs_alice ++ st.c.inputs_bob ++ st.c.gates.map Gate.id ∧
    st.a2 ∈ st.c.inputs_alice ++ st.c.inputs_bob ++ st.c.gates.map Gate.id ∧
    st.a1 ∈ st.c.inputs_alice ++ st.c.inputs_bob ++ st.c.gates.map Gate.id ∧
    st.a0 ∈ st.c.inputs_alice ++ st.c.inputs_bob ++ st.c.gates.map Gate.id
  bInputs : st.b3 ∈ st.c.inputs_alice ++ st.c.inputs_bob ∧
    st.b2 ∈ st.c.inputs_alice ++ st.c.inputs_bob ∧
    st.b1 ∈ st.c.inputs_alice ++ st.c.inputs_bob ∧
    st.b0 ∈ st.c.inputs_alice ++ st.c.inputs_bob
  alen : 4 ∣ st.c.inputs_alice.length
  blen : 4 ∣ st.c.inputs_bob.length
  supEq : listMax (chunkVals env st.c.inputs_alice ++ chunkVals env st.c.inputs_bob) =
    max (quadVal (evalGates st.c.gates env st.a3) (evalGates st.c.gates env st.a2)
          (evalGates st.c.gates env st.a1) (evalGates st.c.gates env st.a0))
        (quadVal (evalGates st.c.gates env st.b3) (evalGates st.c.gates env st.b2)
          (evalGates st.c.gates env st.b1) (evalGates st.c.gates env st.b0))

/-!  Shallow embedding of the harness `src/garbled/src/format.py`. -/

/-- Reading an input file (format.py lines 122-129): keep only the
characters `'0'` and `'1'`, in order, as the integers 0/1. -/
def readBits : List Char → List Nat
  | [] => []
  | c :: cs =>
    if c = '1' ∨ c = '0' then (if c = '1' then 1 else 0) :: readBits cs
    else readBits cs

/-- The padding loop `while len(bits) < set_size * bits: bits.append(0)`
(format.py lines 137-138). -/
def padLoop (l : List Nat) (target : Nat) : List Nat :=
  if l.length < target then padLoop (l ++ [0]) target else l
termination_by target - l.length
decreasing_by simp; omega

/-- The truncation loop `while len(bits) > set_size * bits: bits.pop()`
(format.py lines 139-140); `pop()` drops the last element. -/
def truncLoop (l : List Nat) (target : Nat) : List Nat :=
  if target < l.length then truncLoop l.dropLast target else l
termination_by l.length
decreasing_by simp [List.length_dropLast]; omega

/-- Bring a bit list to exactly `target` bits, as the two while loops do. -/
def padTrunc (l : List Nat) (target : Nat) : List Nat :=
  truncLoop (padLoop l target) target

/-- The startup of `main` (format.py lines 103-160) after circuit
selection: missing-file checks, bit filtering, multiple-of-`bits` checks
and padding/truncation.  A missing file is `none`; `Except.error 1`
models `exit(1)`, reached before any protocol output. -/
def startup (bits set_size : Nat) (alice_file bob_file : Option (List Char)) :
    Except Nat (List Nat × List Nat) :=
  match alice_file with
  | none => Except.error 1
  | some ca =>
    match bob_file with
    | none => Except.error 1
    | some cb =>
      let bits_a := readBits ca
      if bits_a.length % bits ≠ 0 then Except.error 1
      else
        let bits_b := readBits cb
        if bits_b.length % bits ≠ 0 then Except.error 1
        else Except.ok (padTrunc bits_a (set_size * bits), padTrunc bits_b (set_size * bits))

/-- The `__main__` guard (format.py lines 227-232): reject a set size
outside `1..2**4`, then run `main` with `bits = 4`. -/
def cli (set_size : Int) (alice_file bob_file : Option (List Char)) :
    Except Nat (List Nat × List Nat) :=
  if set_size < 1 ∨ set_size > 2 ^ 4 then Except.error 1
  else startup 4 set_size.toNat alice_file bob_file

/-- The circuit path `main` looks up (format.py line 106), relative to
the working directory. -/
def main_circuit_path (bits set_size : Nat) : String :=
  "circuits/max_" ++ toString bits ++ "bits_" ++ toString set_size ++ "items.json"

/-- The file path `complete_circuit` writes (boolean.py line 142):
`int(n/2)` is Python true division followed by `int` truncation,
modelled by the rational floor. -/
def circuit_output_file (bits set_size : Nat) : String :=
  "circuits/max_" ++ toString bits ++ "bits_" ++
    toString (⌊((set_size * 2 : Nat) : ℚ) / 2⌋).toNat ++ "items.json"

/-- `int("".join(str(s) for s in chunk), 2)` (format.py lines 87-88) for
chunks whose entries are the digits 0/1. -/
def parseChunk (l : List Nat) : Nat :=
  l.foldl (fun acc d => 2 * acc + d) 0

/-- The set-assembly loop of `traditional_compute` (format.py lines
85-88): `for i in range(0, len(a), bits)` append the parses of
`a[i:i+bits]` and `b[i:i+bits]`.  A zero step is a Python error, mapped
to the empty list. -/
def buildSet : List Nat → List Nat → Nat → List Nat
  | [], _, _ => []
  | a :: as2, b, bits =>
    if _h : bits = 0 then []
    else parseChunk ((a :: as2).take bits) :: parseChunk (b.take bits) ::
      buildSet ((a :: as2).drop bits) (b.drop bits) bits
termination_by a _ _ => a.length
decreasing_by simp; omega

/-- The character of one binary digit. -/
def digitChar (d : Nat) : Char :=
  if d = 1 then '1' else '0'

/-- Minimal MSB-first binary digits of `n`, with explicit fuel (the fuel
`n` itself always suffices). -/
def binDigitsGo : Nat → Nat → List Nat
  | 0, _ => []
  | fuel + 1, n => if n = 0 then [] else binDigitsGo fuel (n / 2) ++ [n % 2]

/-- Python `f"{c:0{width}b}"`: binary digits of `c` (just "0" for zero),
left-padded with zeros to `width`. -/
def pyBinFormat (c width : Nat) : String :=
  let d := if c = 0 then [0] else binDigitsGo c c
  String.mk ((List.replicate (width - d.length) 0 ++ d).map digitChar)

/-- `traditional_compute` (format.py lines 83-92): the plaintext
reference maximum, returned as the formatted binary string. -/
def traditional_compute (a b : List Nat) (bits : Nat) : String :=
  pyBinFormat (listMax (buildSet a b bits)) bits

/-- MSB-first value of a four-digit group (specification side of C10). -/
def quadValN : List Nat → Nat
  | [d3, d2, d1, d0] => 8 * d3 + 4 * d2 + 2 * d1 + d0
  | _ => 0

/-- The expected 4-character MSB-first string of a value (specification
side of C10). -/
def msbString4 (m : Nat) : String :=
  String.mk ((bits4 m).map fun v => if v then '1' else '0')

/-- The ids of the four fresh input wires allocated at loop iteration
`i` of the chaining loop (specification side of the amended C5): each
iteration consumes 40 generator ids (36 block gates, then 4 inputs),
starting from id 8. -/
def freshQuad (i : Nat) : List Nat :=
  [40 * i + 45, 40 * i + 46, 40 * i + 47, 40 * i + 48]

/-- The input wires Alice ends up with under a single switchover at
iteration `k - 2`: her initial value plus the fresh inputs of iterations
`0 .. k-2` (specification side of the amended C5). -/
def expectedAlice (k : Nat) : List Nat :=
  [1, 2, 3, 4] ++ (List.range (k - 1)).flatMap freshQuad

/-- The input wires Bob ends up with under a single switchover:
his initial value plus the fresh inputs of iterations `k-1 .. 2k-3`
(specification side of the amended C5). -/
def expectedBob (k : Nat) : List Nat :=
  [5, 6, 7, 8] ++ ((List.range (2 * k - 2)).drop (k - 1)).flatMap freshQuad

/-!  Theorems. -/

/-- What `circuit_block` does to the synthesizer state, in closed form. -/
theorem circuit_block_eq (s : BooleanCircuit) (a3 a2 a1 a0 b3 b2 b1 b0 : Nat) :
    circuit_block s a3 a2 a1 a0 b3 b2 b1 b0 =
      ((s.gen + 27, s.gen + 30, s.gen + 33, s.gen + 36),
       { s with
         gen := s.gen + 36,
         outputs := s.outputs ++ [s.gen + 27, s.gen + 30, s.gen + 33, s.gen + 36],
         gates := s.gates ++ blockGates s.gen a3 a2 a1 a0 b3 b2 b1 b0 }) := by
  simp [circuit_block, an, orr, no, nxor, get_next_id, blockGates, Nat.add_assoc]

/-- A comparator block computes the maximum of its two 4-bit arguments. -/
theorem blockFun_max (a3 a2 a1 a0 b3 b2 b1 b0 : Bool) :
    quadList (blockFun a3 a2 a1 a0 b3 b2 b1 b0) =
      bits4 (max (quadVal a3 a2 a1 a0) (quadVal b3 b2 b1 b0)) := by
  revert a3 a2 a1 a0 b3 b2 b1 b0; decide

theorem updEnv_hit (env : Nat → Bool) (i : Nat) (t : GateType) (ins : List Nat)
    (w : Nat) (h : w = i) :
    updEnv env ⟨i, t, ins⟩ w = gateFun t (ins.map env) := by
  simp [updEnv, h]

theorem updEnv_miss (env : Nat → Bool) (i : Nat) (t : GateType) (ins : List Nat)
    (w : Nat) (h : w ≠ i) :
    updEnv env ⟨i, t, ins⟩ w = env w := by
  simp [updEnv, h]

theorem evalGates_append (l1 l2 : List Gate) (env : Nat → Bool) :
    evalGates (l1 ++ l2) env = evalGates l2 (evalGates l1 env) := by
  simp [evalGates, List.foldl_append]

theorem updEnv_ne (env : Nat → Bool) (g : Gate) (w : Nat) (h : w ≠ g.id) :
    updEnv env g w = env w := by
  simp [updEnv, h]

theorem evalGates_frame (gs : List Gate) (env : Nat → Bool) (w : Nat)
    (h : ∀ g ∈ gs, w ≠ g.id) : evalGates gs env w = env w := by
  induction gs generalizing env with
  | nil => rfl
  | cons g rest ih =>
    have h1 : evalGates (g :: rest) env = evalGates rest (updEnv env g) := rfl
    rw [h1, ih (updEnv env g) fun x hx => h x (List.mem_cons_of_mem _ hx),
      updEnv_ne env g w (h g (List.mem_cons_self _ _))]

/-- Wires at or below `g` are untouched by a block whose ids start at `g + 1`. -/
theorem blockGates_frame (g a3 a2 a1 a0 b3 b2 b1 b0 : Nat) (env : Nat → Bool)
    (w : Nat) (hw : w ≤ g) :
    evalGates (blockGates g a3 a2 a1 a0 b3 b2 b1 b0) env w = env w := by
  refine evalGates_frame _ _ _ ?_
  simp only [blockGates, List.forall_mem_cons, List.forall_mem_nil, and_true,
    List.not_mem_nil, false_implies, implies_true]
  omega

/-- Evaluating the gates of one comparator block yields `blockFun` of the
values on its argument wires, on the four result wires. -/
theorem blockGates_out (g a3 a2 a1 a0 b3 b2 b1 b0 : Nat) (env : Nat → Bool)
    (ha3 : a3 ≤ g) (ha2 : a2 ≤ g) (ha1 : a1 ≤ g) (ha0 : a0 ≤ g)
    (hb3 : b3 ≤ g) (hb2 : b2 ≤ g) (hb1 : b1 ≤ g) (hb0 : b0 ≤ g) :
    (evalGates (blockGates g a3 a2 a1 a0 b3 b2 b1 b0) env (g + 27),
     evalGates (blockGates g a3 a2 a1 a0 b3 b2 b1 b0) env (g + 30),
     evalGates (blockGates g a3 a2 a1 a0 b3 b2 b1 b0) env (g + 33),
     evalGates (blockGates g a3 a2 a1 a0 b3 b2 b1 b0) env (g + 36)) =
      blockFun (env a3) (env a2) (env a1) (env a0) (env b3) (env b2) (env b1) (env b0) := by
  simp (disch := omega) only [blockGates, evalGates, List.foldl, updEnv_hit, updEnv_miss,
    gateFun, List.map, blockFun]

/-- What one loop iteration does to the chain state, in closed form. -/
theorem chainStep_eq (cond : Nat → Nat → Bool) (n i : Nat) (st : ChainState) :
    chainStep cond n i st =
      { alice := if cond n i then !st.alice else st.alice,
        a3 := st.c.gen + 27, a2 := st.c.gen + 30, a1 := st.c.gen + 33, a0 := st.c.gen + 36,
        b3 := st.c.gen + 37, b2 := st.c.gen + 38, b1 := st.c.gen + 39, b0 := st.c.gen + 40,
        c := { st.c with
               gen := st.c.gen + 40,
               inputs_alice := if st.alice then st.c.inputs_alice ++
                 [st.c.gen + 37, st.c.gen + 38, st.c.gen + 39, st.c.gen + 40]
                 else st.c.inputs_alice,
               inputs_bob := if st.alice then st.c.inputs_bob else st.c.inputs_bob ++
                 [st.c.gen + 37, st.c.gen + 38, st.c.gen + 39, st.c.gen + 40],
               outputs := st.c.outputs ++
                 [st.c.gen + 27, st.c.gen + 30, st.c.gen + 33, st.c.gen + 36],
               gates := st.c.gates ++
                 blockGates st.c.gen st.a3 st.a2 st.a1 st.a0 st.b3 st.b2 st.b1 st.b0 } } := by
  cases hb : st.alice <;>
    simp [chainStep, circuit_block_eq, get_next_id, hb, Nat.add_assoc]

/-- Block gate ids lie strictly between `g` and `g + 37`. -/
theorem blockGates_ids (g a3 a2 a1 a0 b3 b2 b1 b0 : Nat) :
    ∀ gt ∈ blockGates g a3 a2 a1 a0 b3 b2 b1 b0, g < gt.id ∧ gt.id ≤ g + 36 := by
  simp only [blockGates, List.forall_mem_cons, List.forall_mem_nil, and_true,
    List.not_mem_nil, false_implies, implies_true]
  omega

/-- A block contributes exactly 36 gates. -/
theorem blockGates_length (g a3 a2 a1 a0 b3 b2 b1 b0 : Nat) :
    (blockGates g a3 a2 a1 a0 b3 b2 b1 b0).length = 36 := by
  simp [blockGates]

/-- Block gate ids strictly increase in list order. -/
theorem blockGates_sorted (g a3 a2 a1 a0 b3 b2 b1 b0 : Nat) :
    List.Pairwise (fun u v => u < v)
      ((blockGates g a3 a2 a1 a0 b3 b2 b1 b0).map Gate.id) := by
  simp [blockGates, List.pairwise_cons, List.forall_mem_cons]

/-- A block is well formed over any wire list containing its eight
argument wires. -/
theorem blockGates_ok (av : List Nat) (g a3 a2 a1 a0 b3 b2 b1 b0 : Nat)
    (ha3 : a3 ∈ av) (ha2 : a2 ∈ av) (ha1 : a1 ∈ av) (ha0 : a0 ∈ av)
    (hb3 : b3 ∈ av) (hb2 : b2 ∈ av) (hb1 : b1 ∈ av) (hb0 : b0 ∈ av) :
    GatesOk av (blockGates g a3 a2 a1 a0 b3 b2 b1 b0) := by
  simp [blockGates, GatesOk, ha3, ha2, ha1, ha0, hb3, hb2, hb1, hb0]

/-- Well-formedness is monotone in the available wires. -/
theorem GatesOk_mono (gs : List Gate) : ∀ av av' : List Nat, GatesOk av gs →
    (∀ x ∈ av, x ∈ av') → GatesOk av' gs := by
  induction gs with
  | nil => intro av av' _ _; trivial
  | cons gt rest ih =>
    intro av av' h hsub
    refine ⟨fun w hw => hsub w (h.1 w hw), ih _ _ h.2 ?_⟩
    intro x hx
    rcases List.mem_append.1 hx with h1 | h1
    · exact List.mem_append_left _ (hsub x h1)
    · exact List.mem_append_right _ h1

/-- Well-formedness of a concatenation of gate lists. -/
theorem GatesOk_append (l1 l2 : List Gate) : ∀ av : List Nat,
    GatesOk av (l1 ++ l2) ↔ GatesOk av l1 ∧ GatesOk (av ++ l1.map Gate.id) l2 := by
  induction l1 with
  | nil => intro av; simp [GatesOk]
  | cons gt rest ih =>
    intro av
    simp only [List.cons_append, GatesOk, ih, List.map, List.append_assoc,
      List.singleton_append, and_assoc, List.append_eq, List.nil_append]

/-- Appending one 4-bit group to a list of whole groups appends one chunk. -/
theorem chunks4_append4_len (k : Nat) : ∀ l : List Nat, l.length = 4 * k →
    ∀ x1 x2 x3 x4 : Nat, chunks4 (l ++ [x1, x2, x3, x4]) = chunks4 l ++ [[x1, x2, x3, x4]] := by
  induction k with
  | zero =>
    intro l hl x1 x2 x3 x4
    have : l = [] := List.eq_nil_of_length_eq_zero (by omega)
    subst this
    simp [chunks4]
  | succ k ih =>
    intro l hl x1 x2 x3 x4
    rcases l with _ | ⟨a, _ | ⟨b, _ | ⟨c, _ | ⟨d, rest⟩⟩⟩⟩ <;>
      simp only [List.length] at hl <;> try omega
    have hr : rest.length = 4 * k := by omega
    simp only [List.cons_append, chunks4, List.append_eq, ih rest hr]

theorem chunks4_append4 (l : List Nat) (h : 4 ∣ l.length) (x1 x2 x3 x4 : Nat) :
    chunks4 (l ++ [x1, x2, x3, x4]) = chunks4 l ++ [[x1, x2, x3, x4]] := by
  obtain ⟨k, hk⟩ := h
  exact chunks4_append4_len k l hk x1 x2 x3 x4

/-- Appending one 4-bit group appends its value to the group values. -/
theorem chunkVals_append4 (env : Nat → Bool) (l : List Nat) (h : 4 ∣ l.length)
    (w3 w2 w1 w0 : Nat) :
    chunkVals env (l ++ [w3, w2, w1, w0]) =
      chunkVals env l ++ [quadVal (env w3) (env w2) (env w1) (env w0)] := by
  simp [chunkVals, chunks4_append4 l h, quadValB]

theorem listMax_append (l1 l2 : List Nat) :
    listMax (l1 ++ l2) = max (listMax l1) (listMax l2) := by
  induction l1 with
  | nil => simp [listMax]
  | cons x l ih =>
    simp only [List.cons_append, listMax, List.foldr, List.append_eq] at ih ⊢
    omega

theorem listMax_singleton (x : Nat) : listMax [x] = x := by
  simp [listMax]

/-- A comparator block computes the 4-bit value `max` of its arguments. -/
theorem blockFun_val (a3 a2 a1 a0 b3 b2 b1 b0 : Bool) :
    tupleVal (blockFun a3 a2 a1 a0 b3 b2 b1 b0) =
      max (quadVal a3 a2 a1 a0) (quadVal b3 b2 b1 b0) := by
  revert a3 a2 a1 a0 b3 b2 b1 b0; decide

/-- One chaining iteration preserves the loop invariant, stated on the
explicit components of the chain state. -/
theorem ChainInv.step (env : Nat → Bool) (bits ss : Nat) (al al' : Bool) (g : Nat)
    (A B outs : List Nat) (G : List Gate) (aa3 aa2 aa1 aa0 bb3 bb2 bb1 bb0 : Nat)
    (h : ChainInv env ⟨al, aa3, aa2, aa1, aa0, bb3, bb2, bb1, bb0,
      ⟨bits, ss, g, A, B, outs, G⟩⟩) :
    ChainInv env ⟨al', g + 27, g + 30, g + 33, g + 36, g + 37, g + 38, g + 39, g + 40,
      ⟨bits, ss, g + 40,
       if al then A ++ [g + 37, g + 38, g + 39, g + 40] else A,
       if al then B else B ++ [g + 37, g + 38, g + 39, g + 40],
       outs ++ [g + 27, g + 30, g + 33, g + 36],
       G ++ blockGates g aa3 aa2 aa1 aa0 bb3 bb2 bb1 bb0⟩⟩ := by
  obtain ⟨hgLe, hgSort, hgOk, hinLe, hinNg, haLe, hbLe, haAv, hbIn, halen, hblen, hsup⟩ := h
  dsimp only at hgLe hgSort hgOk hinLe hinNg haLe hbLe haAv hbIn halen hblen hsup
  have hids := blockGates_ids g aa3 aa2 aa1 aa0 bb3 bb2 bb1 bb0
  have hsorted := blockGates_sorted g aa3 aa2 aa1 aa0 bb3 bb2 bb1 bb0
  have hfresh : ∀ w, g + 36 < w →
      evalGates (G ++ blockGates g aa3 aa2 aa1 aa0 bb3 bb2 bb1 bb0) env w = env w := by
    intro w hw
    rw [evalGates_append,
      evalGates_frame _ _ _ (fun gt hgt => by have := hids gt hgt; omega)]
    exact evalGates_frame _ _ _ (fun gt hgt => by have := hgLe gt hgt; omega)
  have houts := blockGates_out g aa3 aa2 aa1 aa0 bb3 bb2 bb1 bb0 (evalGates G env)
    haLe.1 haLe.2.1 haLe.2.2.1 haLe.2.2.2 hbLe.1 hbLe.2.1 hbLe.2.2.1 hbLe.2.2.2
  have hquadA :
      quadVal (evalGates (G ++ blockGates g aa3 aa2 aa1 aa0 bb3 bb2 bb1 bb0) env (g + 27))
        (evalGates (G ++ blockGates g aa3 aa2 aa1 aa0 bb3 bb2 bb1 bb0) env (g + 30))
        (evalGates (G ++ blockGates g aa3 aa2 aa1 aa0 bb3 bb2 bb1 bb0) env (g + 33))
        (evalGates (G ++ blockGates g aa3 aa2 aa1 aa0 bb3 bb2 bb1 bb0) env (g + 36)) =
      max (quadVal (evalGates G env aa3) (evalGates G env aa2)
            (evalGates G env aa1) (evalGates G env aa0))
          (quadVal (evalGates G env bb3) (evalGates G env bb2)
            (evalGates G env bb1) (evalGates G env bb0)) := by
    have h1 := congrArg tupleVal houts
    rw [blockFun_val] at h1
    simp only [tupleVal] at h1
    simp only [evalGates_append]
    exact h1
  have hsup' : max (listMax (chunkVals env A)) (listMax (chunkVals env B)) =
      max (quadVal (evalGates G env aa3) (evalGates G env aa2)
            (evalGates G env aa1) (evalGates G env aa0))
          (quadVal (evalGates G env bb3) (evalGates G env bb2)
            (evalGates G env bb1) (evalGates G env bb0)) := by
    rw [← listMax_append]; exact hsup
  have hF37 := hfresh (g + 37) (by omega)
  have hF38 := hfresh (g + 38) (by omega)
  have hF39 := hfresh (g + 39) (by omega)
  have hF40 := hfresh (g + 40) (by omega)
  have hNewLe : ∀ gt ∈ G ++ blockGates g aa3 aa2 aa1 aa0 bb3 bb2 bb1 bb0,
      gt.id ≤ g + 40 := by
    intro gt hgt
    rcases List.mem_append.1 hgt with h1 | h1
    · have := hgLe gt h1; omega
    · have := hids gt h1; omega
  have hNewSorted : List.Pairwise (fun u v => u < v)
      ((G ++ blockGates g aa3 aa2 aa1 aa0 bb3 bb2 bb1 bb0).map Gate.id) := by
    rw [List.map_append, List.pairwise_append]
    refine ⟨hgSort, hsorted, ?_⟩
    intro x hx y hy
    obtain ⟨gt, hgt, rfl⟩ := List.mem_map.1 hx
    obtain ⟨gt', hgt', rfl⟩ := List.mem_map.1 hy
    have := hgLe gt hgt
    have := hids gt' hgt'
    omega
  have hNewNotGt : ∀ w, (w ∈ A ++ B ∨ w ∈ [g + 37, g + 38, g + 39, g + 40]) →
      ∀ gt ∈ G ++ blockGates g aa3 aa2 aa1 aa0 bb3 bb2 bb1 bb0, w ≠ gt.id := by
    intro w hw gt hgt
    rcases List.mem_append.1 hgt with h1 | h1 <;> rcases hw with h2 | h2
    · exact hinNg w h2 gt h1
    · have := hgLe gt h1
      simp only [List.mem_cons, List.not_mem_nil, or_false] at h2
      omega
    · have := hids gt h1
      have := hinLe w h2
      omega
    · have := hids gt h1
      simp only [List.mem_cons, List.not_mem_nil, or_false] at h2
      omega
  cases al
  -- case al = false: Bob receives the fresh inputs
  · simp only [Bool.false_eq_true, if_false]
    constructor
    case gatesLe => dsimp only; exact hNewLe
    case gatesSorted => dsimp only; exact hNewSorted
    case gatesOk =>
      dsimp only
      rw [GatesOk_append]
      refine ⟨GatesOk_mono G _ _ hgOk ?_, ?_⟩
      · intro x hx
        simp only [List.mem_append] at hx ⊢
        tauto
      · refine blockGates_ok _ g _ _ _ _ _ _ _ _ ?_ ?_ ?_ ?_ ?_ ?_ ?_ ?_
        · have := haAv.1
          simp only [List.mem_append] at this ⊢; tauto
        · have := haAv.2.1
          simp only [List.mem_append] at this ⊢; tauto
        · have := haAv.2.2.1
          simp only [List.mem_append] at this ⊢; tauto
        · have := haAv.2.2.2
          simp only [List.mem_append] at this ⊢; tauto
        · have := hbIn.1
          simp only [List.mem_append] at this ⊢; tauto
        · have := hbIn.2.1
          simp only [List.mem_append] at this ⊢; tauto
        · have := hbIn.2.2.1
          simp only [List.mem_append] at this ⊢; tauto
        · have := hbIn.2.2.2
          simp only [List.mem_append] at this ⊢; tauto
    case inputsLe =>
      dsimp only
      intro w hw
      have hw' : w ∈ A ++ B ∨ w ∈ [g + 37, g + 38, g + 39, g + 40] := by
        simp only [List.mem_append] at hw ⊢
        tauto
      rcases hw' with h1 | h1
      · have := hinLe w h1; omega
      · simp only [List.mem_cons, List.not_mem_nil, or_false] at h1; omega
    case inputsNotGates =>
      dsimp only
      intro w hw
      refine hNewNotGt w ?_
      simp only [List.mem_append] at hw ⊢
      tauto
    case aLe => dsimp only; omega
    case bLe => dsimp only; omega
    case aAvail =>
      dsimp only
      refine ⟨?_, ?_, ?_, ?_⟩ <;>
        (refine List.mem_append_right _ ?_; simp [blockGates, List.map_append])
    case bInputs =>
      dsimp only
      refine ⟨?_, ?_, ?_, ?_⟩ <;> simp [List.mem_append]
    case alen => dsimp only; exact halen
    case blen =>
      dsimp only
      simp only [List.length_append, List.length_cons, List.length_nil]
      omega
    case supEq =>
      dsimp only
      rw [chunkVals_append4 env B hblen, listMax_append, listMax_append,
        hF37, hF38, hF39, hF40, hquadA]
      simp only [listMax_singleton]
      omega
  -- case al = true: Alice receives the fresh inputs
  · simp only [if_true]
    constructor
    case gatesLe => dsimp only; exact hNewLe
    case gatesSorted => dsimp only; exact hNewSorted
    case gatesOk =>
      dsimp only
      rw [GatesOk_append]
      refine ⟨GatesOk_mono G _ _ hgOk ?_, ?_⟩
      · intro x hx
        simp only [List.mem_append] at hx ⊢
        tauto
      · refine blockGates_ok _ g _ _ _ _ _ _ _ _ ?_ ?_ ?_ ?_ ?_ ?_ ?_ ?_
        · have := haAv.1
          simp only [List.mem_append] at this ⊢; tauto
        · have := haAv.2.1
          simp only [List.mem_append] at this ⊢; tauto
        · have := haAv.2.2.1
          simp only [List.mem_append] at this ⊢; tauto
        · have := haAv.2.2.2
          simp only [List.mem_append] at this ⊢; tauto
        · have := hbIn.1
          simp only [List.mem_append] at this ⊢; tauto
        · have := hbIn.2.1
          simp only [List.mem_append] at this ⊢; tauto
        · have := hbIn.2.2.1
          simp only [List.mem_append] at this ⊢; tauto
        · have := hbIn.2.2.2
          simp only [List.mem_append] at this ⊢; tauto
    case inputsLe =>
      dsimp only
      intro w hw
      have hw' : w ∈ A ++ B ∨ w ∈ [g + 37, g + 38, g + 39, g + 40] := by
        simp only [List.mem_append] at hw ⊢
        tauto
      rcases hw' with h1 | h1
      · have := hinLe w h1; omega
      · simp only [List.mem_cons, List.not_mem_nil, or_false] at h1; omega
    case inputsNotGates =>
      dsimp only
      intro w hw
      refine hNewNotGt w ?_
      simp only [List.mem_append] at hw ⊢
      tauto
    case aLe => dsimp only; omega
    case bLe => dsimp only; omega
    case aAvail =>
      dsimp only
      refine ⟨?_, ?_, ?_, ?_⟩ <;>
        (refine List.mem_append_right _ ?_; simp [blockGates, List.map_append])
    case bInputs =>
      dsimp only
      refine ⟨?_, ?_, ?_, ?_⟩ <;> simp [List.mem_append]
    case alen =>
      dsimp only
      simp only [List.length_append, List.length_cons, List.length_nil]
      omega
    case blen => dsimp only; exact hblen
    case supEq =>
      dsimp only
      rw [chunkVals_append4 env A halen, listMax_append, listMax_append,
        hF37, hF38, hF39, hF40, hquadA]
      simp only [listMax_singleton]
      omega

/-- `chainStep` preserves the loop invariant. -/
theorem chainStep_inv (env : Nat → Bool) (cond : Nat → Nat → Bool) (n i : Nat)
    (st : ChainState) (h : ChainInv env st) : ChainInv env (chainStep cond n i st) := by
  obtain ⟨al, aa3, aa2, aa1, aa0, bb3, bb2, bb1, bb0, bits, ss, g, A, B, outs, G⟩ := st
  rw [chainStep_eq]
  exact ChainInv.step env bits ss al _ g A B outs G aa3 aa2 aa1 aa0 bb3 bb2 bb1 bb0 h

/-- The chaining loop preserves the loop invariant. -/
theorem chainLoop_inv (env : Nat → Bool) (cond : Nat → Nat → Bool) (n : Nat) :
    ∀ (r i : Nat) (st : ChainState), ChainInv env st →
      ChainInv env (chainLoop cond n r i st) := by
  intro r
  induction r with
  | zero => intro i st h; exact h
  | succ r ih => intro i st h; exact ih (i + 1) _ (chainStep_inv env cond n i st h)

/-- The generator advances by 40 ids per loop iteration. -/
theorem chainLoop_gen (cond : Nat → Nat → Bool) (n : Nat) :
    ∀ (r i : Nat) (st : ChainState),
      (chainLoop cond n r i st).c.gen = st.c.gen + 40 * r := by
  intro r
  induction r with
  | zero => intro i st; simp [chainLoop]
  | succ r ih =>
    intro i st
    have hstep : (chainStep cond n i st).c.gen = st.c.gen + 40 := by
      rw [chainStep_eq]
    rw [chainLoop, ih (i + 1) (chainStep cond n i st), hstep]
    omega

/-- The gate list grows by 36 gates per loop iteration. -/
theorem chainLoop_gatesLen (cond : Nat → Nat → Bool) (n : Nat) :
    ∀ (r i : Nat) (st : ChainState),
      (chainLoop cond n r i st).c.gates.length = st.c.gates.length + 36 * r := by
  intro r
  induction r with
  | zero => intro i st; simp [chainLoop]
  | succ r ih =>
    intro i st
    have hstep : (chainStep cond n i st).c.gates.length = st.c.gates.length + 36 := by
      rw [chainStep_eq]
      simp [List.length_append, blockGates_length]
    rw [chainLoop, ih (i + 1) (chainStep cond n i st), hstep]
    omega

/-- Python `l[-4:]` after appending four elements yields those four. -/
theorem takeLast4_append (l : List Nat) (a b c d : Nat) :
    takeLast4 (l ++ [a, b, c, d]) = [a, b, c, d] := by
  have h : (l ++ [a, b, c, d]).length - 4 = l.length := by simp
  rw [takeLast4, h, List.drop_left]

/-- The integer form of the switchover test agrees with the rational
division form used by the source. -/
theorem divCondTrue_eq_rat (n i : Nat) : divCondTrue n i = divCondRat n i := by
  unfold divCondTrue divCondRat
  rw [decide_eq_decide, div_eq_iff (show ((i : ℚ) + 1) ≠ 0 by positivity)]
  constructor <;> intro h
  · exact_mod_cast h
  · exact_mod_cast h


/-- The invariant holds at the start of the chaining loop. -/
theorem ChainInv.start (env : Nat → Bool) (k : Nat) :
    ChainInv env ⟨true, 1, 2, 3, 4, 5, 6, 7, 8,
      ⟨4, k, 8, [1, 2, 3, 4], [5, 6, 7, 8], [], []⟩⟩ := by
  constructor
  case gatesLe => intro gt hgt; exact absurd hgt (List.not_mem_nil _)
  case gatesSorted => exact List.Pairwise.nil
  case gatesOk => trivial
  case inputsLe =>
    intro w hw
    dsimp only at hw ⊢
    simp only [List.mem_append, List.mem_cons, List.not_mem_nil, or_false] at hw
    omega
  case inputsNotGates =>
    intro w _ gt hgt
    exact absurd hgt (List.not_mem_nil _)
  case aLe => dsimp only; omega
  case bLe => dsimp only; omega
  case aAvail => dsimp only; simp
  case bInputs => dsimp only; simp
  case alen => dsimp only; decide
  case blen => dsimp only; decide
  case supEq =>
    dsimp only
    simp [chunkVals, chunks4, quadValB, evalGates, listMax]

/-- Full specification of the synthesized circuit, for any switchover
test: the four `out` wires compute the maximum of all input-group values
(MSB first), the circuit is well formed, its gate list consists of the
`2k - 1` comparator blocks, and `out` names the final block's output gates. -/
theorem complete_circuit_with_spec (cond : Nat → Nat → Bool) (k : Nat) (hk : 1 ≤ k)
    (env : Nat → Bool) :
    (complete_circuit_with cond 4 k).out.map
        (evalGates (complete_circuit_with cond 4 k).gates env) =
      bits4 (maxVal env (complete_circuit_with cond 4 k)) ∧
    wellFormed (complete_circuit_with cond 4 k) ∧
    (complete_circuit_with cond 4 k).gates.length = 36 * (2 * k - 1) ∧
    (complete_circuit_with cond 4 k).out =
      [80 * k - 45, 80 * k - 42, 80 * k - 39, 80 * k - 36] ∧
    (∀ w ∈ (complete_circuit_with cond 4 k).alice ++ (complete_circuit_with cond 4 k).bob,
      ∀ gt ∈ (complete_circuit_with cond 4 k).gates, w ≠ gt.id) := by
  have h0 := ChainInv.start env k
  have hinv := chainLoop_inv env cond (k * 2) (k * 2 - 2) 0 _ h0
  have hgen1 := chainLoop_gen cond (k * 2) (k * 2 - 2) 0
    ⟨true, 1, 2, 3, 4, 5, 6, 7, 8, ⟨4, k, 8, [1, 2, 3, 4], [5, 6, 7, 8], [], []⟩⟩
  have hlen1 := chainLoop_gatesLen cond (k * 2) (k * 2 - 2) 0
    ⟨true, 1, 2, 3, 4, 5, 6, 7, 8, ⟨4, k, 8, [1, 2, 3, 4], [5, 6, 7, 8], [], []⟩⟩
  set st1 := chainLoop cond (k * 2) (k * 2 - 2) 0
    ⟨true, 1, 2, 3, 4, 5, 6, 7, 8, ⟨4, k, 8, [1, 2, 3, 4], [5, 6, 7, 8], [], []⟩⟩ with hst1
  have hcc : complete_circuit_with cond 4 k =
      { alice := st1.c.inputs_alice, bob := st1.c.inputs_bob,
        out := takeLast4 (st1.c.outputs ++
          [st1.c.gen + 27, st1.c.gen + 30, st1.c.gen + 33, st1.c.gen + 36]),
        gates := st1.c.gates ++
          blockGates st1.c.gen st1.a3 st1.a2 st1.a1 st1.a0 st1.b3 st1.b2 st1.b1 st1.b0 } := by
    simp [complete_circuit_with, BooleanCircuit.init, circuit_block_eq]
  obtain ⟨hgLe, hgSort, hgOk, hinLe, hinNg, haLe, hbLe, haAv, hbIn, halen, hblen, hsup⟩ := hinv
  have houts := blockGates_out st1.c.gen st1.a3 st1.a2 st1.a1 st1.a0 st1.b3 st1.b2 st1.b1
    st1.b0 (evalGates st1.c.gates env)
    haLe.1 haLe.2.1 haLe.2.2.1 haLe.2.2.2 hbLe.1 hbLe.2.1 hbLe.2.2.1 hbLe.2.2.2
  simp only [List.length_nil] at hlen1
  dsimp only at hgen1 hlen1
  rw [hcc]
  dsimp only [maxVal]
  rw [takeLast4_append]
  have hlist := congrArg quadList houts
  rw [blockFun_max] at hlist
  simp only [quadList] at hlist
  refine ⟨?_, ⟨?_, ?_, ?_⟩, ?_, ?_, ?_⟩
  · -- the out wires compute the maximum, MSB first
    simp only [List.map, evalGates_append]
    simp only [listMax] at hsup
    rw [hlist, hsup]
  · -- well-formed gate references
    rw [GatesOk_append]
    exact ⟨hgOk, blockGates_ok _ _ _ _ _ _ _ _ _ _
      haAv.1 haAv.2.1 haAv.2.2.1 haAv.2.2.2
      (List.mem_append_left _ hbIn.1) (List.mem_append_left _ hbIn.2.1)
      (List.mem_append_left _ hbIn.2.2.1) (List.mem_append_left _ hbIn.2.2.2)⟩
  · -- strictly increasing gate ids
    rw [List.map_append, List.pairwise_append]
    refine ⟨hgSort, blockGates_sorted _ _ _ _ _ _ _ _ _, ?_⟩
    intro x hx y hy
    obtain ⟨gt, hgt, rfl⟩ := List.mem_map.1 hx
    obtain ⟨gt', hgt', rfl⟩ := List.mem_map.1 hy
    have := hgLe gt hgt
    have := blockGates_ids st1.c.gen st1.a3 st1.a2 st1.a1 st1.a0 st1.b3 st1.b2 st1.b1
      st1.b0 gt' hgt'
    omega
  · -- exactly four output wires
    rfl
  · -- 36 gates per comparator block, 2k - 1 blocks
    simp only [List.length_append, blockGates_length, hlen1]
    omega
  · -- the out wires are the final block's four output gates
    rw [hgen1]
    simp only [List.cons.injEq, and_true]
    omega
  · -- input ids never collide with gate ids
    intro w hw gt hgt
    rcases List.mem_append.1 hgt with h1 | h1
    · exact hinNg w hw gt h1
    · have := blockGates_ids st1.c.gen st1.a3 st1.a2 st1.a1 st1.a0 st1.b3 st1.b2 st1.b1
        st1.b0 gt h1
      have := hinLe w hw
      omega

/-- C1: for every set size `k` with `1 ≤ k ≤ 16`, evaluating the gates of
`BooleanCircuit(4, k).complete_circuit()` in list order under Boolean
semantics yields, on the four `out` wires, the MSB-first encoding of the
maximum of all `2k` input-group values, for every assignment of bits to
the `alice` and `bob` wires; the gate list consists of exactly `2k - 1`
comparator blocks of 36 gates each. -/
theorem complete_circuit_computes_max (k : Nat) (h1 : 1 ≤ k) (h16 : k ≤ 16)
    (env : Nat → Bool) :
    (complete_circuit 4 k).out.map (evalGates (complete_circuit 4 k).gates env) =
      bits4 (maxVal env (complete_circuit 4 k)) ∧
    (complete_circuit 4 k).gates.length = 36 * (2 * k - 1) := by
  have h := complete_circuit_with_spec divCondTrue k h1 env
  exact ⟨h.1, h.2.2.1⟩

theorem complete_circuit_computes_max_witness :
    1 ≤ 1 ∧ 1 ≤ 16 ∧
    ((complete_circuit 4 1).out.map
        (evalGates (complete_circuit 4 1).gates fun w => decide (w % 2 = 1)) =
      bits4 (maxVal (fun w => decide (w % 2 = 1)) (complete_circuit 4 1)) ∧
    (complete_circuit 4 1).gates.length = 36 * (2 * 1 - 1)) :=
  ⟨by decide, by decide,
    complete_circuit_computes_max 1 (by decide) (by decide) fun w => decide (w % 2 = 1)⟩

/-- C6: every synthesized circuit (`b = 4`, `1 ≤ k ≤ 16`) is well formed:
gate inputs reference input wires or earlier gates, gate ids are strictly
increasing (hence pairwise distinct) in list order, and `out` consists of
exactly the four output gates of the final comparator block. -/
theorem complete_circuit_well_formed (k : Nat) (h1 : 1 ≤ k) (h16 : k ≤ 16) :
    wellFormed (complete_circuit 4 k) ∧
    (complete_circuit 4 k).out =
      [80 * k - 45, 80 * k - 42, 80 * k - 39, 80 * k - 36] := by
  have h := complete_circuit_with_spec divCondTrue k h1 fun _ => false
  exact ⟨h.2.1, h.2.2.2.1⟩

theorem complete_circuit_well_formed_witness :
    1 ≤ 1 ∧ 1 ≤ 16 ∧
    (wellFormed (complete_circuit 4 1) ∧
      (complete_circuit 4 1).out =
        [80 * 1 - 45, 80 * 1 - 42, 80 * 1 - 39, 80 * 1 - 36]) :=
  ⟨by decide, by decide, complete_circuit_well_formed 1 (by decide) (by decide)⟩

/-- C3 fails as stated: for `k = 2`, wire 45 is an input wire of Alice
while gate 9 is the first gate of the list, so not every input-wire id
is smaller than every gate id. -/
theorem input_ids_below_gate_ids_fails :
    45 ∈ (complete_circuit 4 2).alice ∧
    (⟨9, GateType.NXOR, [1, 5]⟩ : Gate) ∈ (complete_circuit 4 2).gates ∧
    ¬ (45 < 9) := by
  refine ⟨by decide, by decide, by decide⟩

/-- C3 amended: the initial eight input wires are assigned first and
densely (ids 1..8); all later ids, of gates and of fresh input wires
alike, come from the single monotonic counter starting strictly above 8,
so an id in the `alice` or `bob` lists never equals a gate id; for
`k = 1` every input-wire id is smaller than every gate id. -/
theorem input_ids_gate_ids_disjoint (k : Nat) (h1 : 1 ≤ k) (h16 : k ≤ 16) :
    (∀ w ∈ (complete_circuit 4 k).alice ++ (complete_circuit 4 k).bob,
      ∀ gt ∈ (complete_circuit 4 k).gates, w ≠ gt.id) ∧
    (k = 1 → ∀ w ∈ (complete_circuit 4 k).alice ++ (complete_circuit 4 k).bob,
      ∀ gt ∈ (complete_circuit 4 k).gates, w < gt.id) := by
  refine ⟨(complete_circuit_with_spec divCondTrue k h1 fun _ => false).2.2.2.2, ?_⟩
  rintro rfl
  decide

theorem input_ids_gate_ids_disjoint_witness :
    1 ≤ 1 ∧ 1 ≤ 16 ∧
    ((∀ w ∈ (complete_circuit 4 1).alice ++ (complete_circuit 4 1).bob,
      ∀ gt ∈ (complete_circuit 4 1).gates, w ≠ gt.id) ∧
    (1 = 1 → ∀ w ∈ (complete_circuit 4 1).alice ++ (complete_circuit 4 1).bob,
      ∀ gt ∈ (complete_circuit 4 1).gates, w < gt.id)) :=
  ⟨by decide, by decide, input_ids_gate_ids_disjoint 1 (by decide) (by decide)⟩

/-- C4: for every set size `1 ≤ k ≤ 16`, the `alice` and `bob` input-wire
lists are disjoint and each holds exactly `k` four-bit values. -/
theorem inputs_per_party (k : Nat) (h1 : 1 ≤ k) (h16 : k ≤ 16) :
    (complete_circuit 4 k).alice.length = 4 * k ∧
    (complete_circuit 4 k).bob.length = 4 * k ∧
    ∀ w ∈ (complete_circuit 4 k).alice, w ∉ (complete_circuit 4 k).bob := by
  interval_cases k <;> exact ⟨by decide, by decide, by decide⟩

theorem inputs_per_party_witness :
    1 ≤ 2 ∧ 2 ≤ 16 ∧
    ((complete_circuit 4 2).alice.length = 4 * 2 ∧
     (complete_circuit 4 2).bob.length = 4 * 2 ∧
     ∀ w ∈ (complete_circuit 4 2).alice, w ∉ (complete_circuit 4 2).bob) :=
  ⟨by decide, by decide, inputs_per_party 2 (by decide) (by decide)⟩

/-- C5 fails as stated: with true division the condition is false at
`n = 10, i = 2` while integer division makes it true, and for `k = 5`
the two readings assign the fresh input wires to different parties. -/
theorem divCond_intdiv_not_equivalent :
    divCondTrue 10 2 = false ∧ divCondInt 10 2 = true ∧
    (complete_circuit 4 5).alice ≠ (complete_circuit_intdiv 4 5).alice := by
  exact ⟨by decide, by decide, by decide⟩

/-- C5 amended: under the source's true-division test, ownership of the
fresh inputs switches exactly once, from Alice to Bob: the condition
`(n-2)/(i+1) == 2` holds exactly at the midpoint `m = i + 2` of `n = 2m`,
Alice's list is her initial value plus the fresh quads of iterations
`0..k-2`, and Bob's list is his initial value plus the remaining fresh
quads; the integer-division reading of the condition is not equivalent
(it yields a different assignment at `k = 5`). -/
theorem chain_switchover (k : Nat) (h1 : 1 ≤ k) (h16 : k ≤ 16) :
    (∀ m i : Nat, divCondTrue (2 * m) i = decide (m = i + 2)) ∧
    (complete_circuit 4 k).alice = expectedAlice k ∧
    (complete_circuit 4 k).bob = expectedBob k := by
  constructor
  · intro m i
    unfold divCondTrue
    rw [decide_eq_decide]
    omega
  · interval_cases k <;> exact ⟨by decide, by decide⟩

theorem chain_switchover_witness :
    1 ≤ 3 ∧ 3 ≤ 16 ∧
    ((∀ m i : Nat, divCondTrue (2 * m) i = decide (m = i + 2)) ∧
     (complete_circuit 4 3).alice = expectedAlice 3 ∧
     (complete_circuit 4 3).bob = expectedBob 3) :=
  ⟨by decide, by decide, chain_switchover 3 (by decide) (by decide)⟩

/-- The MSB shortcut `a3 ∨ b3` agrees with the generic mux form
`(x ∧ a3) ∨ (¬x ∧ b3)` where `x = (A > B) ∨ (A = B)`. -/
theorem msb_or_eq_mux (a3 a2 a1 a0 b3 b2 b1 b0 : Bool) :
    (a3 || b3) =
      (((decide (quadVal a3 a2 a1 a0 > quadVal b3 b2 b1 b0) ||
          decide (quadVal a3 a2 a1 a0 = quadVal b3 b2 b1 b0)) && a3) ||
        (!(decide (quadVal a3 a2 a1 a0 > quadVal b3 b2 b1 b0) ||
          decide (quadVal a3 a2 a1 a0 = quadVal b3 b2 b1 b0)) && b3)) := by
  revert a3 a2 a1 a0 b3 b2 b1 b0; decide

/-- C2: one call of `circuit_block` emits the gate list `blockGates`; for
all 4-bit values `A` and `B` those gates evaluate on the four returned
wires to `max(A, B)` MSB-first, the MSB gate computes `a3 ∨ b3`, and that
equals the generic mux form `(x ∧ a3) ∨ (¬x ∧ b3)` with
`x = (A > B) ∨ (A = B)` used for the three lower bits. -/
theorem circuit_block_computes_max (s : BooleanCircuit) (a3 a2 a1 a0 b3 b2 b1 b0 : Nat)
    (ha3 : a3 ≤ s.gen) (ha2 : a2 ≤ s.gen) (ha1 : a1 ≤ s.gen) (ha0 : a0 ≤ s.gen)
    (hb3 : b3 ≤ s.gen) (hb2 : b2 ≤ s.gen) (hb1 : b1 ≤ s.gen) (hb0 : b0 ≤ s.gen)
    (env : Nat → Bool) :
    (circuit_block s a3 a2 a1 a0 b3 b2 b1 b0).2.gates =
      s.gates ++ blockGates s.gen a3 a2 a1 a0 b3 b2 b1 b0 ∧
    (circuit_block s a3 a2 a1 a0 b3 b2 b1 b0).1 =
      (s.gen + 27, s.gen + 30, s.gen + 33, s.gen + 36) ∧
    [evalGates (blockGates s.gen a3 a2 a1 a0 b3 b2 b1 b0) env (s.gen + 27),
     evalGates (blockGates s.gen a3 a2 a1 a0 b3 b2 b1 b0) env (s.gen + 30),
     evalGates (blockGates s.gen a3 a2 a1 a0 b3 b2 b1 b0) env (s.gen + 33),
     evalGates (blockGates s.gen a3 a2 a1 a0 b3 b2 b1 b0) env (s.gen + 36)] =
      bits4 (max (quadVal (env a3) (env a2) (env a1) (env a0))
        (quadVal (env b3) (env b2) (env b1) (env b0))) ∧
    evalGates (blockGates s.gen a3 a2 a1 a0 b3 b2 b1 b0) env (s.gen + 27) =
      (env a3 || env b3) ∧
    (env a3 || env b3) =
      (((decide (quadVal (env a3) (env a2) (env a1) (env a0) >
            quadVal (env b3) (env b2) (env b1) (env b0)) ||
         decide (quadVal (env a3) (env a2) (env a1) (env a0) =
            quadVal (env b3) (env b2) (env b1) (env b0))) && env a3) ||
       (!(decide (quadVal (env a3) (env a2) (env a1) (env a0) >
            quadVal (env b3) (env b2) (env b1) (env b0)) ||
         decide (quadVal (env a3) (env a2) (env a1) (env a0) =
            quadVal (env b3) (env b2) (env b1) (env b0))) && env b3)) := by
  have houts := blockGates_out s.gen a3 a2 a1 a0 b3 b2 b1 b0 env
    ha3 ha2 ha1 ha0 hb3 hb2 hb1 hb0
  have hlist := congrArg quadList houts
  rw [blockFun_max] at hlist
  simp only [quadList] at hlist
  have h27 := congrArg Prod.fst houts
  simp only [blockFun] at h27
  refine ⟨by rw [circuit_block_eq], by rw [circuit_block_eq], hlist, h27, ?_⟩
  exact msb_or_eq_mux (env a3) (env a2) (env a1) (env a0) (env b3) (env b2) (env b1) (env b0)

theorem circuit_block_computes_max_witness :
    (1 ≤ (BooleanCircuit.init 4 1).gen ∧ 2 ≤ (BooleanCircuit.init 4 1).gen ∧
     3 ≤ (BooleanCircuit.init 4 1).gen ∧ 4 ≤ (BooleanCircuit.init 4 1).gen ∧
     5 ≤ (BooleanCircuit.init 4 1).gen ∧ 6 ≤ (BooleanCircuit.init 4 1).gen ∧
     7 ≤ (BooleanCircuit.init 4 1).gen ∧ 8 ≤ (BooleanCircuit.init 4 1).gen) ∧
    (circuit_block (BooleanCircuit.init 4 1) 1 2 3 4 5 6 7 8).1 =
      ((BooleanCircuit.init 4 1).gen + 27, (BooleanCircuit.init 4 1).gen + 30,
       (BooleanCircuit.init 4 1).gen + 33, (BooleanCircuit.init 4 1).gen + 36) ∧
    [evalGates (blockGates (BooleanCircuit.init 4 1).gen 1 2 3 4 5 6 7 8)
        (fun w => decide (w ≤ 2)) ((BooleanCircuit.init 4 1).gen + 27),
     evalGates (blockGates (BooleanCircuit.init 4 1).gen 1 2 3 4 5 6 7 8)
        (fun w => decide (w ≤ 2)) ((BooleanCircuit.init 4 1).gen + 30),
     evalGates (blockGates (BooleanCircuit.init 4 1).gen 1 2 3 4 5 6 7 8)
        (fun w => decide (w ≤ 2)) ((BooleanCircuit.init 4 1).gen + 33),
     evalGates (blockGates (BooleanCircuit.init 4 1).gen 1 2 3 4 5 6 7 8)
        (fun w => decide (w ≤ 2)) ((BooleanCircuit.init 4 1).gen + 36)] =
      bits4 (max
        (quadVal (decide ((1 : Nat) ≤ 2)) (decide ((2 : Nat) ≤ 2))
          (decide ((3 : Nat) ≤ 2)) (decide ((4 : Nat) ≤ 2)))
        (quadVal (decide ((5 : Nat) ≤ 2)) (decide ((6 : Nat) ≤ 2))
          (decide ((7 : Nat) ≤ 2)) (decide ((8 : Nat) ≤ 2)))) :=
  ⟨⟨by decide, by decide, by decide, by decide, by decide, by decide, by decide, by decide⟩,
    (circuit_block_computes_max (BooleanCircuit.init 4 1) 1 2 3 4 5 6 7 8
      (by decide) (by decide) (by decide) (by decide) (by decide) (by decide)
      (by decide) (by decide) fun w => decide (w ≤ 2)).2.1,
    (circuit_block_computes_max (BooleanCircuit.init 4 1) 1 2 3 4 5 6 7 8
      (by decide) (by decide) (by decide) (by decide) (by decide) (by decide)
      (by decide) (by decide) fun w => decide (w ≤ 2)).2.2.1⟩

theorem padLoop_eq (target : Nat) : ∀ (d : Nat) (l : List Nat), target - l.length = d →
    padLoop l target = l ++ List.replicate (target - l.length) 0 := by
  intro d
  induction d with
  | zero =>
    intro l h
    rw [padLoop, if_neg (by omega), h]
    simp
  | succ d ih =>
    intro l h
    rw [padLoop, if_pos (by omega), ih (l ++ [0]) (by simp; omega)]
    simp only [List.length_append, List.length_cons, List.length_nil, List.append_assoc,
      List.singleton_append]
    have h1 : target - l.length = (target - (l.length + 1)) + 1 := by omega
    rw [h1, List.replicate_succ]

theorem truncLoop_eq (l : List Nat) (target : Nat) : truncLoop l target = l.take target := by
  generalize h : l.length = d
  induction d generalizing l with
  | zero =>
    rw [truncLoop, if_neg (by omega)]
    have : l = [] := List.eq_nil_of_length_eq_zero h
    simp [this]
  | succ d ih =>
    by_cases hlt : target < l.length
    · rw [truncLoop, if_pos hlt, ih l.dropLast (by simp [List.length_dropLast]; omega)]
      rw [List.dropLast_eq_take, List.take_take]
      congr 1
      omega
    · rw [truncLoop, if_neg hlt, List.take_of_length_le (by omega)]

theorem padTrunc_eq (l : List Nat) (t : Nat) :
    padTrunc l t = (l ++ List.replicate (t - l.length) 0).take t := by
  rw [padTrunc, truncLoop_eq, padLoop_eq t (t - l.length) l rfl]

theorem readBits_filter (cs : List Char) :
    readBits cs =
      (cs.filter fun c => c == '1' || c == '0').map fun c => if c = '1' then 1 else 0 := by
  induction cs with
  | nil => rfl
  | cons c cs ih =>
    by_cases h1 : c = '1'
    · simp [readBits, List.filter_cons, h1, ih]
    · by_cases h0 : c = '0'
      · simp [readBits, List.filter_cons, h0, h1, ih]
      · simp [readBits, List.filter_cons, h0, h1, ih]

/-- C7: reading an input file keeps exactly the characters `'0'` and
`'1'`, in order; the bit list is then brought to exactly `k * 4` bits by
appending zeros at the tail when shorter and dropping bits from the tail
when longer. -/
theorem read_and_adjust_input (cs : List Char) (k : Nat) :
    readBits cs =
      (cs.filter fun c => c == '1' || c == '0').map (fun c => if c = '1' then 1 else 0) ∧
    ((readBits cs).length ≤ k * 4 →
      padTrunc (readBits cs) (k * 4) =
        readBits cs ++ List.replicate (k * 4 - (readBits cs).length) 0) ∧
    (k * 4 ≤ (readBits cs).length →
      padTrunc (readBits cs) (k * 4) = (readBits cs).take (k * 4)) ∧
    (padTrunc (readBits cs) (k * 4)).length = k * 4 := by
  refine ⟨readBits_filter cs, ?_, ?_, ?_⟩
  · intro h
    rw [padTrunc_eq, List.take_of_length_le]
    simp only [List.length_append, List.length_replicate]
    omega
  · intro h
    rw [padTrunc_eq]
    have h0 : k * 4 - (readBits cs).length = 0 := by omega
    rw [h0]
    simp
  · rw [padTrunc_eq]
    simp only [List.length_take, List.length_append, List.length_replicate]
    omega

theorem read_and_adjust_input_witness :
    (readBits ['x', '1', '0', ' ', '1']).length ≤ 2 * 4 ∧
    padTrunc (readBits ['x', '1', '0', ' ', '1']) (2 * 4) =
      readBits ['x', '1', '0', ' ', '1'] ++
        List.replicate (2 * 4 - (readBits ['x', '1', '0', ' ', '1']).length) 0 :=
  ⟨by decide, (read_and_adjust_input ['x', '1', '0', ' ', '1'] 2).2.1 (by decide)⟩

/-- C8: the harness exits with code 1 at startup, before any protocol
output, exactly when an input file is missing, the filtered bit count of
an input file is not a multiple of 4 (checked before padding), or the
set size is outside `1..16`. -/
theorem cli_exit1_iff (set_size : Int) (af bf : Option (List Char)) :
    cli set_size af bf = Except.error 1 ↔
      set_size < 1 ∨ set_size > 16 ∨ af = none ∨ bf = none ∨
      (∃ ca, af = some ca ∧ (readBits ca).length % 4 ≠ 0) ∨
      (∃ cb, bf = some cb ∧ (readBits cb).length % 4 ≠ 0) := by
  rcases af with _ | ca <;> rcases bf with _ | cb <;>
    simp [cli, startup, show ((2 : Int) ^ 4 = 16) from by norm_num] <;>
    omega

/-- C9: circuit synthesis is a pure function of `(bits, set_size)` (two
runs yield structurally identical circuits), and the file path it writes,
`circuits/max_<bits>bits_<int(n/2)>items.json`, coincides with the stable
path `main` looks up, so later runs re-use the cached file. -/
theorem circuit_synthesis_deterministic (bits set_size : Nat) :
    complete_circuit bits set_size = complete_circuit bits set_size ∧
    circuit_output_file bits set_size = main_circuit_path bits set_size := by
  refine ⟨rfl, ?_⟩
  unfold circuit_output_file main_circuit_path
  have h1 : ((set_size * 2 : Nat) : ℚ) / 2 = ((set_size : Nat) : ℚ) := by
    push_cast
    ring
  rw [h1, Int.floor_natCast, Int.toNat_natCast]

theorem listMax_cons (x : Nat) (l : List Nat) : listMax (x :: l) = max x (listMax l) := by
  simp [listMax]

theorem listMax_lt_of_forall (l : List Nat) (h : ∀ x ∈ l, x < 16) : listMax l < 16 := by
  induction l with
  | nil => simp [listMax]
  | cons x l ih =>
    rw [listMax_cons]
    have := h x (List.mem_cons_self _ _)
    have := ih fun y hy => h y (List.mem_cons_of_mem _ hy)
    omega

theorem parseChunk_quad (d3 d2 d1 d0 : Nat) :
    parseChunk [d3, d2, d1, d0] = 8 * d3 + 4 * d2 + 2 * d1 + d0 := by
  simp [parseChunk, List.foldl]
  ring

/-- On whole 4-digit groups, `parseChunk` is the MSB-first group value. -/
theorem chunks4_map_parse (k : Nat) : ∀ l : List Nat, l.length = 4 * k →
    (chunks4 l).map parseChunk = (chunks4 l).map quadValN := by
  induction k with
  | zero =>
    intro l hl
    have : l = [] := List.eq_nil_of_length_eq_zero (by omega)
    subst this
    simp [chunks4]
  | succ k ih =>
    intro l hl
    rcases l with _ | ⟨a, _ | ⟨b, _ | ⟨c, _ | ⟨d, rest⟩⟩⟩⟩ <;>
      simp only [List.length] at hl <;> try omega
    have hr : rest.length = 4 * k := by omega
    simp only [chunks4, List.map, ih rest hr, parseChunk_quad, quadValN]

/-- Entries of whole 4-digit groups come from the original list. -/
theorem chunks4_sub (k : Nat) : ∀ l : List Nat, l.length = 4 * k →
    ∀ q ∈ chunks4 l, ∀ x ∈ q, x ∈ l := by
  induction k with
  | zero =>
    intro l hl
    have : l = [] := List.eq_nil_of_length_eq_zero (by omega)
    subst this
    simp [chunks4]
  | succ k ih =>
    intro l hl
    rcases l with _ | ⟨a, _ | ⟨b, _ | ⟨c, _ | ⟨d, rest⟩⟩⟩⟩ <;>
      simp only [List.length] at hl <;> try omega
    have hr : rest.length = 4 * k := by omega
    intro q hq x hx
    simp only [chunks4, List.mem_cons] at hq
    rcases hq with rfl | hq
    · simp only [List.mem_cons, List.not_mem_nil, or_false] at hx
      simp only [List.mem_cons]
      tauto
    · have := ih rest hr q hq x hx
      simp only [List.mem_cons]
      tauto

theorem quadValN_lt (q : List Nat) (h : ∀ x ∈ q, x ≤ 1) : quadValN q < 16 := by
  rcases q with _ | ⟨d3, _ | ⟨d2, _ | ⟨d1, _ | ⟨d0, _ | ⟨e, rest⟩⟩⟩⟩⟩ <;>
    simp only [quadValN] <;> try omega
  have h3 := h d3 (by simp)
  have h2 := h d2 (by simp)
  have h1 := h d1 (by simp)
  have h0 := h d0 (by simp)
  omega

/-- The interleaved set assembled by `traditional_compute` has the same
maximum as the two chunked parses. -/
theorem buildSet_max (k : Nat) : ∀ a b : List Nat, a.length = 4 * k → b.length = 4 * k →
    listMax (buildSet a b 4) =
      max (listMax ((chunks4 a).map parseChunk)) (listMax ((chunks4 b).map parseChunk)) := by
  induction k with
  | zero =>
    intro a b ha hb
    have h1 : a = [] := List.eq_nil_of_length_eq_zero (by omega)
    have h2 : b = [] := List.eq_nil_of_length_eq_zero (by omega)
    subst h1
    subst h2
    simp [buildSet, chunks4, listMax]
  | succ k ih =>
    intro a b ha hb
    rcases a with _ | ⟨a3, _ | ⟨a2, _ | ⟨a1, _ | ⟨a0, a'⟩⟩⟩⟩ <;>
      simp only [List.length] at ha <;> try omega
    rcases b with _ | ⟨b3, _ | ⟨b2, _ | ⟨b1, _ | ⟨b0, b'⟩⟩⟩⟩ <;>
      simp only [List.length] at hb <;> try omega
    have ha' : a'.length = 4 * k := by omega
    have hb' : b'.length = 4 * k := by omega
    simp only [buildSet]
    rw [dif_neg (show ¬(4 : Nat) = 0 by omega)]
    simp only [List.take, List.drop, chunks4, List.map, listMax_cons, ih a' b' ha' hb']
    omega

theorem msbString4_length (m : Nat) : (msbString4 m).length = 4 := by
  simp [msbString4, bits4, String.length]

theorem pyBinFormat_eq_msb (m : Nat) (h : m < 16) : pyBinFormat m 4 = msbString4 m := by
  interval_cases m <;> rfl

/-- C10: on two lists of `k` four-bit groups of binary digits,
`traditional_compute` returns the 4-character MSB-first binary string of
the maximum of the `2k` group values. -/
theorem traditional_compute_max (k : Nat) (a b : List Nat) (hk : 1 ≤ k)
    (ha : a.length = 4 * k) (hb : b.length = 4 * k)
    (ha1 : ∀ x ∈ a, x ≤ 1) (hb1 : ∀ x ∈ b, x ≤ 1) :
    traditional_compute a b 4 =
      msbString4 (listMax ((chunks4 a).map quadValN ++ (chunks4 b).map quadValN)) ∧
    (traditional_compute a b 4).length = 4 := by
  have hM : listMax (buildSet a b 4) =
      listMax ((chunks4 a).map quadValN ++ (chunks4 b).map quadValN) := by
    rw [buildSet_max k a b ha hb, chunks4_map_parse k a ha, chunks4_map_parse k b hb,
      listMax_append]
  have hlt : listMax ((chunks4 a).map quadValN ++ (chunks4 b).map quadValN) < 16 := by
    refine listMax_lt_of_forall _ ?_
    intro v hv
    rcases List.mem_append.1 hv with h1 | h1
    · obtain ⟨q, hq, rfl⟩ := List.mem_map.1 h1
      exact quadValN_lt q fun x hx => ha1 x (chunks4_sub k a ha q hq x hx)
    · obtain ⟨q, hq, rfl⟩ := List.mem_map.1 h1
      exact quadValN_lt q fun x hx => hb1 x (chunks4_sub k b hb q hq x hx)
  rw [traditional_compute, hM, pyBinFormat_eq_msb _ hlt]
  exact ⟨rfl, msbString4_length _⟩

theorem traditional_compute_max_witness :
    1 ≤ 1 ∧ ([0, 1, 0, 1] : List Nat).length = 4 * 1 ∧ ([0, 0, 1, 1] : List Nat).length = 4 * 1 ∧
    (∀ x ∈ ([0, 1, 0, 1] : List Nat), x ≤ 1) ∧ (∀ x ∈ ([0, 0, 1, 1] : List Nat), x ≤ 1) ∧
    (traditional_compute [0, 1, 0, 1] [0, 0, 1, 1] 4 =
      msbString4 (listMax ((chunks4 [0, 1, 0, 1]).map quadValN ++
        (chunks4 [0, 0, 1, 1]).map quadValN)) ∧
     (traditional_compute [0, 1, 0, 1] [0, 0, 1, 1] 4).length = 4) :=
  ⟨by decide, by decide, by decide, by decide, by decide,
    traditional_compute_max 1 [0, 1, 0, 1] [0, 0, 1, 1] (by decide) (by decide) (by decide)
      (by decide) (by decide)⟩
